import Mathlib

/-!
Verification development for the YTS-Morning-Routine-JA renderer scripts
(`scripts/render.js` and the time-sliced variant).  The JavaScript string
and list manipulations are embedded as executable Lean functions over
`List Char`; filesystem and randomness effects are passed in explicitly.
Suffix `V1` marks the `scripts/render.js` variant, `V2` the time-sliced
variant (the unnamed source file).
-/

namespace YTS

/-- JavaScript whitespace class `\s`, restricted to the ASCII range that the
scripts can encounter in practice. -/
def jsWs (c : Char) : Bool :=
  c = ' ' || c = '\t' || c = '\n' || c = '\r' || c = '\x0b' || c = '\x0c'

/-- JavaScript `.` (dot) metacharacter: any character except a line
terminator. -/
def jsDot (c : Char) : Bool :=
  !(c = '\n' || c = '\r')

/-- One step of right trimming: keep `c` unless everything after it was
trimmed away and `c` is itself whitespace. -/
def trimRightCons (c : Char) : List Char → List Char
  | [] => if jsWs c then [] else [c]
  | d :: r => c :: d :: r

/-- Remove trailing whitespace characters. -/
def trimRight : List Char → List Char
  | [] => []
  | c :: rest => trimRightCons c (trimRight rest)

/-- JavaScript `String.prototype.trim`: whitespace removed on both ends. -/
def trimJs (s : List Char) : List Char :=
  trimRight (s.dropWhile jsWs)

/-! ## The filter-graph escape functions (`esc`) -/

/-- `String.replace(/t/g, out)` for a single-character target `t`: one
left-to-right pass replacing every occurrence, without rescanning the
replacement text. -/
def repl (t : Char) (out : List Char) : List Char → List Char
  | [] => []
  | c :: rest => (if c = t then out else [c]) ++ repl t out rest

/-- `esc` from `scripts/render.js`: backslash is substituted first, then
colon, single quote, percent and the square brackets. -/
def escV1 (s : List Char) : List Char :=
  repl ']' ['\\', ']']
    (repl '[' ['\\', '[']
      (repl '%' ['\\', '%']
        (repl '\'' ['\\', '\'']
          (repl ':' ['\\', ':']
            (repl '\\' ['\\', '\\'] s)))))

/-- `esc` from the time-sliced variant: colon, single quote and percent are
substituted first, the backslash only fourth, then the square brackets. -/
def escV2 (s : List Char) : List Char :=
  repl ']' ['\\', ']']
    (repl '[' ['\\', '[']
      (repl '\\' ['\\', '\\']
        (repl '%' ['\\', '%']
          (repl '\'' ['\\', '\'']
            (repl ':' ['\\', ':'] s)))))

/-- The five character classes the filter-graph mini-language reserves. -/
def isSpec (c : Char) : Bool :=
  c = '\\' || c = ':' || c = '\'' || c = '%' || c = '[' || c = ']'

/-- Simultaneous per-character escaping: the intended meaning of `esc`. -/
def escChar (c : Char) : List Char :=
  if isSpec c then ['\\', c] else [c]

/-- The external tool's unescaping of exactly the five escape sequences:
a backslash followed by a reserved character decodes to that character;
anything else is copied verbatim. -/
def unescapeFG : List Char → List Char
  | '\\' :: c :: rest =>
    if isSpec c then c :: unescapeFG rest else '\\' :: c :: unescapeFG rest
  | c :: rest => c :: unescapeFG rest
  | [] => []

/-- Per-character escaping extended to strings. -/
def escAll : List Char → List Char
  | [] => []
  | c :: rest => escChar c ++ escAll rest

lemma repl_append (t : Char) (out a b : List Char) :
    repl t out (a ++ b) = repl t out a ++ repl t out b := by
  induction a with
  | nil => rfl
  | cons c rest ih => simp [repl, ih]

lemma escV1_append (a b : List Char) :
    escV1 (a ++ b) = escV1 a ++ escV1 b := by
  simp [escV1, repl_append]

lemma escV1_single (c : Char) : escV1 [c] = escChar c := by
  by_cases h1 : c = '\\'
  · subst h1; rfl
  by_cases h2 : c = ':'
  · subst h2; rfl
  by_cases h3 : c = '\''
  · subst h3; rfl
  by_cases h4 : c = '%'
  · subst h4; rfl
  by_cases h5 : c = '['
  · subst h5; rfl
  by_cases h6 : c = ']'
  · subst h6; rfl
  simp [escV1, repl, escChar, isSpec, h1, h2, h3, h4, h5, h6]

lemma escV1_eq_escAll (s : List Char) : escV1 s = escAll s := by
  induction s with
  | nil => rfl
  | cons c rest ih =>
    have : escV1 (c :: rest) = escV1 [c] ++ escV1 rest := escV1_append [c] rest
    rw [this, escV1_single, ih]; rfl

lemma unescapeFG_cons (c : Char) (h : ¬ c = '\\') (l : List Char) :
    unescapeFG (c :: l) = c :: unescapeFG l := by
  rw [unescapeFG.eq_def]
  split
  · rename_i heq
    injection heq with h1 _
    exact absurd h1 h
  · rename_i heq
    injection heq with h1 h2
    rw [h1, h2]
  · rename_i heq
    exact absurd heq (by simp)

lemma unescape_escAll (s : List Char) : unescapeFG (escAll s) = s := by
  induction s with
  | nil => rfl
  | cons c rest ih =>
    show unescapeFG (escChar c ++ escAll rest) = c :: rest
    by_cases h : isSpec c
    · simp only [escChar, h, if_pos, List.cons_append, List.nil_append]
      simp only [unescapeFG, h, if_pos, ih]
    · have hc : ¬ c = '\\' := by
        intro he; subst he; simp [isSpec] at h
      simp only [escChar, h, if_neg, List.cons_append, List.nil_append,
        Bool.false_eq_true, not_false_iff]
      rw [unescapeFG_cons c hc, ih]

/-- C1: the `render.js` escape function substitutes the backslash first and
round-trips through the tool's unescaping for every string, but the
time-sliced variant's escape function substitutes the backslash only after
colon, quote and percent, so already on the one-character input `:` it
produces `\\:`, which unescapes to `\:` and not to `:`; the round-trip
property of the claim fails on that variant. -/
theorem c1_escape_roundtrip_backslash_first :
    (∀ s : List Char, unescapeFG (escV1 s) = s) ∧
    escV2 [':'] = ['\\', '\\', ':'] ∧
    unescapeFG (escV2 [':']) = ['\\', ':'] ∧
    unescapeFG (escV2 [':']) ≠ [':'] :=
  ⟨fun s => by rw [escV1_eq_escAll]; exact unescape_escAll s,
   by decide, by decide, by decide⟩

/-! ## Markdown body extraction (time-sliced variant, `parseMd`) -/

/-- Prepend a character to the first chunk of a chunk list. -/
def consHead (c : Char) : List (List Char) → List (List Char)
  | [] => [[c]]
  | l :: ls => (c :: l) :: ls

/-- `content.split(/\r?\n/)`. -/
def splitLines : List Char → List (List Char)
  | [] => [[]]
  | '\r' :: '\n' :: rest => [] :: splitLines rest
  | '\n' :: rest => [] :: splitLines rest
  | c :: rest => consHead c (splitLines rest)

/-- The tail after a literal `.`, or `none`: the `\.` after `\d+`. -/
def dotTail : List Char → Option (List Char)
  | '.' :: r => some r
  | _ => none

/-- The leading `\s*` and the marker alternative of the bullet regex
`(?:[-*+]|\d+\.)`: the text after the list marker, or `none` when the line
carries no marker. -/
def stripMarker (line : List Char) : Option (List Char) :=
  match line.dropWhile jsWs with
  | [] => none
  | c :: rest =>
    if c = '-' || c = '*' || c = '+' then some rest
    else if c.isDigit then dotTail ((c :: rest).dropWhile Char.isDigit)
    else none

/-- The lazy tail `(.+?)\s*$` of the bullet regex at a fixed start position:
the shortest non-empty prefix of dot-matchable characters whose remainder is
all whitespace, or `none` when no such split exists. -/
def lazyCap : List Char → Option (List Char)
  | [] => none
  | c :: rest =>
    if jsDot c then
      if rest.all jsWs then some [c]
      else (lazyCap rest).map (c :: ·)
    else none

/-- Backtracking of the greedy `\s+`: the whitespace characters in the first
argument may be given back one at a time (most recently consumed first) when
the lazy group fails to match. -/
def bodyAux : List Char → List Char → Option (List Char)
  | [], s => lazyCap s
  | w :: gs, s =>
    match lazyCap s with
    | some cap => some cap
    | none => bodyAux gs (w :: s)

/-- `\s+(.+?)\s*$` matched against the text following a list marker. -/
def matchBody (r : List Char) : Option (List Char) :=
  match r.takeWhile jsWs with
  | [] => none
  | _ :: ws1 => bodyAux ws1.reverse (r.dropWhile jsWs)

/-- One line matched against `/^\s*(?:[-*+]|\d+\.)\s+(.+?)\s*$/`, returning
the captured group. -/
def matchBullet (line : List Char) : Option (List Char) :=
  (stripMarker line).bind matchBody

/-- All bullet captures of the body, in source order. -/
def bulletsOf (body : List Char) : List (List Char) :=
  (splitLines body).filterMap matchBullet

/-- `String.replace(/\s+/g, " ")`: every maximal whitespace run becomes one
space.  The flag records whether the previous character was whitespace. -/
def collapseAux : Bool → List Char → List Char
  | _, [] => []
  | inWs, c :: rest =>
    if jsWs c then
      if inWs then collapseAux true rest else ' ' :: collapseAux true rest
    else c :: collapseAux false rest

def collapseWs (s : List Char) : List Char := collapseAux false s

/-- `content.split(/\n{2,}/)`.  The flag records that a separator run of at
least two newlines is still being consumed. -/
def spAux : Bool → List Char → List (List Char)
  | _, [] => [[]]
  | true, '\n' :: rest => spAux true rest
  | true, c :: rest => consHead c (spAux false rest)
  | false, '\n' :: '\n' :: rest => [] :: spAux true rest
  | false, c :: rest => consHead c (spAux false rest)

def splitPara (s : List Char) : List (List Char) := spAux false s

/-- The paragraph branch of `parseMd`: split on blank-line runs, collapse
whitespace, trim, drop empties. -/
def paragraphsOf (body : List Char) : List (List Char) :=
  ((splitPara body).map (fun p => trimJs (collapseWs p))).filter (fun p => !p.isEmpty)

/-- `bullets.length ? bullets : paragraphs`. -/
def linesOf (body : List Char) : List (List Char) :=
  if bulletsOf body = [] then paragraphsOf body else bulletsOf body

/-! ## Title resolution (`/^#\s+(.+)/m` and the fallback chains) -/

/-- Backtracking of `\s+` before the greedy `(.+)` of the heading regex:
give back consumed whitespace until `.` can match. -/
def h1Aux : List Char → List Char → Option (List Char)
  | [], [] => none
  | [], c :: rest =>
    if jsDot c then some ((c :: rest).takeWhile jsDot) else none
  | w :: gs, [] => h1Aux gs [w]
  | w :: gs, c :: rest =>
    if jsDot c then some ((c :: rest).takeWhile jsDot)
    else h1Aux gs (w :: c :: rest)

/-- `\s+(.+)` matched against the text following the `#`. -/
def h1Cap (r : List Char) : Option (List Char) :=
  match r.takeWhile jsWs with
  | [] => none
  | _ :: ws1 => h1Aux ws1.reverse (r.dropWhile jsWs)

/-- Scan for the first multiline-anchored match of `/^#\s+(.+)/m`; the flag
records whether the current position is a line start. -/
def firstH1Aux : Bool → List Char → Option (List Char)
  | _, [] => none
  | atStart, c :: rest =>
    if atStart && c = '#' then
      match h1Cap rest with
      | some cap => some cap
      | none => firstH1Aux false rest
    else firstH1Aux (c = '\n' || c = '\r') rest

def firstH1 (content : List Char) : Option (List Char) := firstH1Aux true content

/-- `path.basename(mdPath, ".md")`. -/
def baseNameNoMd (p : List Char) : List Char :=
  let base := (p.reverse.takeWhile (fun c => !(c = '/'))).reverse
  if base.reverse.take 3 = ['d', 'm', '.'] then (base.reverse.drop 3).reverse else base

/-- Title resolution of `scripts/render.js`: frontmatter `title` when
non-empty, else the first level-1 heading capture, else the empty string. -/
def titleV1 (fmTitle : List Char) (content : List Char) : List Char :=
  if fmTitle = [] then (firstH1 content).getD [] else fmTitle

/-- Title resolution of the time-sliced variant: frontmatter `title` when
non-empty, else the first level-1 heading capture, else the document's base
name without the `.md` extension. -/
def titleV2 (fmTitle : List Char) (content : List Char) (mdPath : List Char) : List Char :=
  if fmTitle = [] then (firstH1 content).getD (baseNameNoMd mdPath) else fmTitle

/-! ## Duration resolution -/

/-- `parseFloat(fm.duration || 0) || DUR_OVERRIDE || 12`.  A missing or
non-numeric frontmatter `duration` is `none` (zero and `NaN` are equally
falsy); `durOverride` is the already-defaulted `--dur` value. -/
def resolveDur (fmDur : Option ℚ) (durOverride : ℚ) : ℚ :=
  let p : ℚ := fmDur.getD 0
  if p ≠ 0 then p else if durOverride ≠ 0 then durOverride else 12

/-! ## Asset resolution -/

def toLowerL (s : List Char) : List Char := s.map Char.toLower

def endsWithL (s suf : List Char) : Bool := s.reverse.take suf.length == suf.reverse

/-- Extensions of `/\.(jpe?g|png|mp4|mov|webm)$/i`. -/
def bgExts : List (List Char) :=
  [['.', 'j', 'p', 'g'], ['.', 'j', 'p', 'e', 'g'], ['.', 'p', 'n', 'g'],
   ['.', 'm', 'p', '4'], ['.', 'm', 'o', 'v'], ['.', 'w', 'e', 'b', 'm']]

/-- Extensions of `/\.(mp3|wav)$/i`. -/
def bgmExts : List (List Char) := [['.', 'm', 'p', '3'], ['.', 'w', 'a', 'v']]

/-- Case-insensitive extension test of the selection regexes. -/
def extTest (exts : List (List Char)) (name : List Char) : Bool :=
  exts.any (fun e => endsWithL (toLowerL name) e)

/-- `path.join(dir, name)`. -/
def pathJoin (dir name : List Char) : List Char := dir ++ '/' :: name

/-- `pickRandom(dir, re)`: the `readdirSync` result is passed in as
`entries` (`none` models the call throwing), the random draw as an arbitrary
index `k` reduced modulo the number of matching files; the empty string is
returned when nothing matches. -/
def pickRandom (dir : List Char) (entries : Option (List (List Char)))
    (re : List Char → Bool) (k : Nat) : List Char :=
  match entries with
  | none => []
  | some es =>
    match es.filter re with
    | [] => []
    | f :: fs => pathJoin dir ((f :: fs).getD (k % (f :: fs).length) [])

/-- Result of background resolution: a path, or the thrown
`No background in …` error (the `MissingBackgroundAsset` condition). -/
inductive BgResult
  | ok (p : List Char)
  | missingBackgroundAsset
  deriving DecidableEq

/-- Background resolution of `scripts/render.js` (`renderOne`): the explicit
frontmatter `bg` wins when the joined path exists, otherwise a random pick;
an empty or non-existing result throws. -/
def resolveBgV1 (fsEx : List Char → Bool) (bgDir : List Char)
    (entries : Option (List (List Char))) (metaBg : List Char) (k : Nat) : BgResult :=
  let bg0 := if metaBg = [] then [] else pathJoin bgDir metaBg
  let bg1 := if bg0 = [] || !fsEx bg0 then pickRandom bgDir entries (extTest bgExts) k else bg0
  if bg1 = [] || !fsEx bg1 then .missingBackgroundAsset else .ok bg1

/-- Background resolution of the time-sliced variant (`renderOne`): a
present frontmatter `bg` is joined unconditionally, only an absent one picks
at random; an empty or non-existing result throws. -/
def resolveBgV2 (fsEx : List Char → Bool) (bgDir : List Char)
    (entries : Option (List (List Char))) (metaBg : List Char) (k : Nat) : BgResult :=
  let bg := if metaBg = [] then pickRandom bgDir entries (extTest bgExts) k
            else pathJoin bgDir metaBg
  if bg = [] || !fsEx bg then .missingBackgroundAsset else .ok bg

/-! ## Time-sliced overlay windows (`buildDrawtextChain`) -/

/-- `Math.min(1.2, Math.max(0.8, dur * 0.1))`. -/
def titleDur (dur : ℚ) : ℚ := min 1.2 (max 0.8 (dur * 0.1))

/-- `titleDur + 0.1`. -/
def bodyStart (dur : ℚ) : ℚ := titleDur dur + 0.1

/-- `Math.max(0.8, (dur - bodyStart - 0.3) / Math.max(lines.length, 1))`. -/
def perLine (dur : ℚ) (n : ℕ) : ℚ :=
  max 0.8 ((dur - bodyStart dur - 0.3) / max (n : ℚ) 1)

/-- Start time of the window of body line `i`. -/
def winStart (dur : ℚ) (n : ℕ) (i : ℕ) : ℚ :=
  bodyStart dur + perLine dur n * i

/-- `Math.min(dur, st + per - 0.05)`: clamped end time of the window of body
line `i`. -/
def winEnd (dur : ℚ) (n : ℕ) (i : ℕ) : ℚ :=
  min dur (winStart dur n i + perLine dur n - 0.05)

/-- One `(start, end)` window per body line, in source order. -/
def bodyWindows (dur : ℚ) (n : ℕ) : List (ℚ × ℚ) :=
  (List.range n).map (fun i => (winStart dur n i, winEnd dur n i))

/-! ## Orchestration loop (`main`) -/

/-- What `renderOne` does for one document: returns `true`, returns `null`
(empty content skip), or throws. -/
inductive Outcome
  | ok
  | skipEmpty
  | failErr
  deriving DecidableEq

/-- `console.warn("[render fail]", f, …)`. -/
def failLog (f : List Char) : List Char := "[render fail] ".toList ++ f

/-- The `main` loop: strictly sequential; stops before a document once
`done` has reached the cap; a thrown error is caught, logged with the
offending path, not counted, and the loop continues.  Returns the final
count, the processed paths in order, and the failure log. -/
def runLoop (maxN : Nat) :
    Nat → List (List Char × Outcome) → Nat × List (List Char) × List (List Char)
  | done, [] => (done, [], [])
  | done, (f, o) :: rest =>
    if maxN ≤ done then (done, [], [])
    else
      match o with
      | .ok =>
        let r := runLoop maxN (done + 1) rest
        (r.1, f :: r.2.1, r.2.2)
      | .skipEmpty =>
        let r := runLoop maxN done rest
        (r.1, f :: r.2.1, r.2.2)
      | .failErr =>
        let r := runLoop maxN done rest
        (r.1, f :: r.2.1, failLog f :: r.2.2)

/-! ## List and trimming helper lemmas -/

lemma mem_dropWhile_mem {p : Char → Bool} : ∀ {l : List Char} {a : Char},
    a ∈ l.dropWhile p → a ∈ l := by
  intro l
  induction l with
  | nil => intro a h; simp [List.dropWhile] at h
  | cons c rest ih =>
    intro a h
    by_cases hc : p c
    · rw [List.dropWhile_cons, if_pos hc] at h
      exact List.mem_cons_of_mem _ (ih h)
    · rw [List.dropWhile_cons, if_neg hc] at h
      exact h

lemma mem_takeWhile_mem {p : Char → Bool} : ∀ {l : List Char} {a : Char},
    a ∈ l.takeWhile p → a ∈ l ∧ p a = true := by
  intro l
  induction l with
  | nil => intro a h; simp [List.takeWhile] at h
  | cons c rest ih =>
    intro a h
    by_cases hc : p c
    · rw [List.takeWhile_cons, if_pos hc] at h
      rcases List.mem_cons.mp h with h1 | h2
      · subst h1; exact ⟨List.mem_cons_self _ _, hc⟩
      · obtain ⟨hm, hp⟩ := ih h2
        exact ⟨List.mem_cons_of_mem _ hm, hp⟩
    · rw [List.takeWhile_cons, if_neg hc] at h
      simp at h

lemma dropWhile_head_false {p : Char → Bool} : ∀ {l : List Char} {c : Char} {t : List Char},
    l.dropWhile p = c :: t → p c = false := by
  intro l
  induction l with
  | nil => intro c t h; simp [List.dropWhile] at h
  | cons a rest ih =>
    intro c t h
    by_cases ha : p a
    · rw [List.dropWhile_cons, if_pos ha] at h
      exact ih h
    · rw [List.dropWhile_cons, if_neg ha] at h
      injection h with h1 _
      rw [← h1]
      exact Bool.eq_false_iff.mpr ha

lemma dropWhile_nil_all {p : Char → Bool} : ∀ {l : List Char},
    l.dropWhile p = [] → ∀ a ∈ l, p a = true := by
  intro l
  induction l with
  | nil => intro _ a ha; simp at ha
  | cons c rest ih =>
    intro h a ha
    by_cases hc : p c
    · rw [List.dropWhile_cons, if_pos hc] at h
      rcases List.mem_cons.mp ha with h1 | h2
      · exact h1 ▸ hc
      · exact ih h a h2
    · rw [List.dropWhile_cons, if_neg hc] at h
      cases h

lemma trimRight_nil_of_all : ∀ {s : List Char}, (∀ c ∈ s, jsWs c = true) → trimRight s = [] := by
  intro s
  induction s with
  | nil => intro _; rfl
  | cons c rest ih =>
    intro h
    have hr : trimRight rest = [] := ih (fun d hd => h d (List.mem_cons_of_mem _ hd))
    show trimRightCons c (trimRight rest) = []
    rw [hr]
    simp [trimRightCons, h c (List.mem_cons_self _ _)]

lemma trimRight_head_struct (c : Char) (rest : List Char) :
    trimRight (c :: rest) = [] ∨ ∃ t, trimRight (c :: rest) = c :: t := by
  have h : trimRight (c :: rest) = trimRightCons c (trimRight rest) := rfl
  cases htr : trimRight rest with
  | nil =>
    rw [htr] at h
    by_cases hc : jsWs c
    · left; rw [h]; simp [trimRightCons, hc]
    · right; exact ⟨[], by rw [h]; simp [trimRightCons, hc]⟩
  | cons d r =>
    rw [htr] at h
    right; exact ⟨d :: r, h⟩

lemma trimRight_idem : ∀ s : List Char, trimRight (trimRight s) = trimRight s := by
  intro s
  induction s with
  | nil => rfl
  | cons c rest ih =>
    show trimRight (trimRightCons c (trimRight rest)) = trimRightCons c (trimRight rest)
    cases h : trimRight rest with
    | nil =>
      by_cases hc : jsWs c
      · simp [trimRightCons, hc, trimRight]
      · simp [trimRightCons, hc, trimRight]
    | cons d r =>
      rw [h] at ih
      show trimRight (c :: d :: r) = c :: d :: r
      show trimRightCons c (trimRight (d :: r)) = c :: d :: r
      rw [ih]
      rfl

lemma trimJs_idem (s : List Char) : trimJs (trimJs s) = trimJs s := by
  unfold trimJs
  cases h : s.dropWhile jsWs with
  | nil => simp [trimRight, List.dropWhile]
  | cons c t =>
    have hc : jsWs c = false := dropWhile_head_false h
    rcases trimRight_head_struct c t with h1 | ⟨t2, h2⟩
    · rw [h1]; simp [List.dropWhile, trimRight]
    · rw [h2, List.dropWhile_cons, hc]
      simp only [Bool.false_eq_true, if_false]
      rw [← h2]
      exact trimRight_idem _

lemma mem_trimRight_mem : ∀ {s : List Char} {c : Char}, c ∈ trimRight s → c ∈ s := by
  intro s
  induction s with
  | nil => intro c h; simp [trimRight] at h
  | cons a rest ih =>
    intro c h
    replace h : c ∈ trimRightCons a (trimRight rest) := h
    cases htr : trimRight rest with
    | nil =>
      rw [htr] at h
      by_cases ha : jsWs a
      · simp [trimRightCons, ha] at h
      · simp [trimRightCons, ha] at h
        exact h ▸ List.mem_cons_self _ _
    | cons d r =>
      rw [htr] at h
      rcases List.mem_cons.mp h with h1 | h2
      · exact h1 ▸ List.mem_cons_self _ _
      · exact List.mem_cons_of_mem _ (ih (htr ▸ h2))

lemma mem_trimJs_mem {s : List Char} {c : Char} (h : c ∈ trimJs s) : c ∈ s :=
  mem_dropWhile_mem (mem_trimRight_mem h)

lemma mem_collapseAux_sp : ∀ {s : List Char} {b : Bool} {c : Char},
    c ∈ collapseAux b s → jsWs c = true → c = ' ' := by
  intro s
  induction s with
  | nil => intro b c h; simp [collapseAux] at h
  | cons d rest ih =>
    intro b c h hc
    by_cases hd : jsWs d
    · cases b with
      | true =>
        simp only [collapseAux, hd, if_pos] at h
        exact ih h hc
      | false =>
        simp only [collapseAux, hd, if_pos] at h
        rcases List.mem_cons.mp h with h1 | h2
        · exact h1
        · exact ih h2 hc
    · simp only [collapseAux, hd, Bool.false_eq_true, if_false] at h
      rcases List.mem_cons.mp h with h1 | h2
      · rw [h1] at hc; exact absurd hc (Bool.eq_false_iff.mpr hd ▸ by simp [hd])
      · exact ih h2 hc

lemma pathJoin_ne_nil (dir name : List Char) : pathJoin dir name ≠ [] := by
  simp [pathJoin]

/-! ## Claim theorems: duration (C3) -/

/-- C3 (amended): the duration chain resolves frontmatter `duration` first,
then the `--dur` override, then 12 — but the fall-through condition is
JavaScript falsiness, so only a missing, non-numeric or zero value at a step
falls through; a non-zero (in particular negative) value is used as-is.  The
three concrete scenarios of the claim hold, and the function is total. -/
theorem c3_duration_chain (d o : ℚ) (hd : d ≠ 0) (ho : o ≠ 0) :
    resolveDur (some 20) 5 = 20 ∧ resolveDur none 5 = 5 ∧ resolveDur none 0 = 12 ∧
    resolveDur (some d) o = d ∧
    resolveDur (some 0) o = resolveDur none o ∧
    resolveDur none o = o ∧
    resolveDur none 0 = 12 := by
  refine ⟨by norm_num [resolveDur], by norm_num [resolveDur], by norm_num [resolveDur],
    ?_, ?_, ?_, by norm_num [resolveDur]⟩
  · simp [resolveDur, hd]
  · simp [resolveDur]
  · simp [resolveDur, ho]

theorem c3_duration_chain_witness :
    (2 : ℚ) ≠ 0 ∧ (5 : ℚ) ≠ 0 ∧
    (resolveDur (some 20) 5 = 20 ∧ resolveDur none 5 = 5 ∧ resolveDur none 0 = 12 ∧
     resolveDur (some 2) 5 = 2 ∧
     resolveDur (some 0) 5 = resolveDur none 5 ∧
     resolveDur none 5 = 5 ∧
     resolveDur none 0 = 12) :=
  ⟨by norm_num, by norm_num, c3_duration_chain 2 5 (by norm_num) (by norm_num)⟩

/-- C3 counterexample: a negative frontmatter duration is truthy, so it does
not fall through to the next step of the chain as the claim requires for
non-positive values: with frontmatter duration `-3` and no `--dur`, the
resolved duration is `-3`, not 12. -/
theorem c3_counterexample :
    resolveDur (some (-3)) 0 = -3 ∧ ¬ (0 : ℚ) < -3 ∧
    resolveDur (some (-3)) 0 ≠ 12 := by
  norm_num [resolveDur]

/-! ## Claim theorems: overlay windows (C10) -/

/-- C10 (amended): for every positive duration and non-empty line list, the
title lead-in window length is clamped into `[0.8, 1.2]`; every body line's
window has pre-clamp length `perLine − 0.05 ≥ 0.75`; the windows come one
per line in source order and are pairwise disjoint and increasing (the end
of an earlier window lies strictly before the start of a later one).  After
the end-of-duration clamp a window need not have positive length. -/
theorem c10_window_invariants (dur : ℚ) (n i j : ℕ) (hdur : 0 < dur) (hn : 0 < n)
    (hij : i < j) (hj : j < n) :
    (0.8 ≤ titleDur dur ∧ titleDur dur ≤ 1.2) ∧
    0.75 ≤ perLine dur n - 0.05 ∧
    winEnd dur n i < winStart dur n j ∧
    (bodyWindows dur n).length = n := by
  have hper : (0.8 : ℚ) ≤ perLine dur n := le_max_left _ _
  refine ⟨⟨le_min (by norm_num) (le_max_left _ _), min_le_left _ _⟩, by linarith, ?_, ?_⟩
  · have h1 : winEnd dur n i ≤ winStart dur n i + perLine dur n - 0.05 := min_le_right _ _
    have hij' : (i : ℚ) + 1 ≤ (j : ℚ) := by exact_mod_cast hij
    have hmul : perLine dur n * ((i : ℚ) + 1) ≤ perLine dur n * (j : ℚ) :=
      mul_le_mul_of_nonneg_left hij' (by linarith)
    have hst : winStart dur n i + perLine dur n ≤ winStart dur n j := by
      simp only [winStart]
      nlinarith
    linarith
  · simp [bodyWindows]

theorem c10_window_invariants_witness :
    (0 : ℚ) < 12 ∧ 0 < 2 ∧ 0 < 1 ∧ 1 < 2 ∧
    ((0.8 ≤ titleDur 12 ∧ titleDur 12 ≤ 1.2) ∧
     0.75 ≤ perLine 12 2 - 0.05 ∧
     winEnd 12 2 0 < winStart 12 2 1 ∧
     (bodyWindows 12 2).length = 2) :=
  ⟨by norm_num, by norm_num, by norm_num, by norm_num,
   c10_window_invariants 12 2 0 1 (by norm_num) (by norm_num) (by norm_num) (by norm_num)⟩

/-- C10 counterexample: with duration 1 and two lines, the second body
line's clamped window ends at time 1 but starts at time 1.7 — its display
window is empty, so "each body line's display window has positive length"
fails as stated. -/
theorem c10_counterexample :
    winStart 1 2 1 = 17/10 ∧ winEnd 1 2 1 = 1 ∧ winEnd 1 2 1 < winStart 1 2 1 := by
  norm_num [winStart, winEnd, bodyStart, titleDur, perLine]

/-! ## Claim theorems: background resolution (C2, C6) -/

/-- C2 (amended): when frontmatter `bg` is present and the joined path
exists, both variants resolve exactly that path.  When the joined path does
not exist, only `scripts/render.js` falls back to the random pick (its
resolution then coincides with the no-`bg` resolution); the time-sliced
variant instead fails with the missing-background error. -/
theorem c2_background_resolution (fsEx : List Char → Bool) (bgDir : List Char)
    (entries : Option (List (List Char))) (metaBg : List Char) (k : Nat)
    (hbg : metaBg ≠ []) :
    (fsEx (pathJoin bgDir metaBg) = true →
      resolveBgV1 fsEx bgDir entries metaBg k = .ok (pathJoin bgDir metaBg) ∧
      resolveBgV2 fsEx bgDir entries metaBg k = .ok (pathJoin bgDir metaBg)) ∧
    (fsEx (pathJoin bgDir metaBg) = false →
      resolveBgV1 fsEx bgDir entries metaBg k = resolveBgV1 fsEx bgDir entries [] k ∧
      resolveBgV2 fsEx bgDir entries metaBg k = .missingBackgroundAsset) := by
  constructor
  · intro hex
    constructor
    · simp [resolveBgV1, hbg, hex, pathJoin_ne_nil]
    · simp [resolveBgV2, hbg, hex, pathJoin_ne_nil]
  · intro hex
    constructor
    · simp [resolveBgV1, hbg, hex, pathJoin_ne_nil]
    · simp [resolveBgV2, hbg, hex, pathJoin_ne_nil]

theorem c2_background_resolution_witness :
    ("beach.png".toList : List Char) ≠ [] ∧
    (fun p => p == ("assets/bg/beach.png".toList))
        (pathJoin ("assets/bg".toList) ("beach.png".toList)) = true ∧
    (resolveBgV1 (fun p => p == ("assets/bg/beach.png".toList))
        ("assets/bg".toList) (some ["other.png".toList]) ("beach.png".toList) 0 =
      .ok (pathJoin ("assets/bg".toList) ("beach.png".toList)) ∧
     resolveBgV2 (fun p => p == ("assets/bg/beach.png".toList))
        ("assets/bg".toList) (some ["other.png".toList]) ("beach.png".toList) 0 =
      .ok (pathJoin ("assets/bg".toList) ("beach.png".toList))) :=
  ⟨by decide, by decide,
   (c2_background_resolution (fun p => p == ("assets/bg/beach.png".toList))
      ("assets/bg".toList) (some ["other.png".toList]) ("beach.png".toList) 0
      (by decide)).1 (by decide)⟩

/-- C2 counterexample: frontmatter `bg: beach.png` does not exist on disk
while the background directory holds a matching file `other.png`; the
time-sliced variant fails with the missing-background error instead of
falling back to the random selection (which `scripts/render.js` performs,
resolving `assets/bg/other.png`). -/
theorem c2_counterexample :
    resolveBgV2 (fun p => p == "assets/bg/other.png".toList) ("assets/bg".toList)
        (some ["other.png".toList]) ("beach.png".toList) 0 = .missingBackgroundAsset ∧
    resolveBgV1 (fun p => p == "assets/bg/other.png".toList) ("assets/bg".toList)
        (some ["other.png".toList]) ("beach.png".toList) 0 =
      .ok ("assets/bg/other.png".toList) ∧
    ["other.png".toList].filter (extTest bgExts) ≠ [] := by
  refine ⟨by decide, by decide, by decide⟩

/-- C6: when the background directory holds no file matching the recognized
image/video extensions and the frontmatter `bg` is absent or its joined path
does not exist, both variants raise the missing-background error instead of
producing a plan. -/
theorem c6_missing_background (fsEx : List Char → Bool) (bgDir : List Char)
    (es : List (List Char)) (metaBg : List Char) (k : Nat)
    (hmatch : es.filter (extTest bgExts) = [])
    (hbg : metaBg = [] ∨ fsEx (pathJoin bgDir metaBg) = false) :
    resolveBgV1 fsEx bgDir (some es) metaBg k = .missingBackgroundAsset ∧
    resolveBgV2 fsEx bgDir (some es) metaBg k = .missingBackgroundAsset := by
  have hpick : pickRandom bgDir (some es) (extTest bgExts) k = [] := by
    simp [pickRandom, hmatch]
  rcases hbg with hb | hb
  · subst hb
    constructor
    · simp [resolveBgV1, hpick]
    · simp [resolveBgV2, hpick]
  · by_cases hm : metaBg = []
    · subst hm
      constructor
      · simp [resolveBgV1, hpick]
      · simp [resolveBgV2, hpick]
    · constructor
      · simp [resolveBgV1, hm, hb, hpick]
      · simp [resolveBgV2, hm, hb, pathJoin_ne_nil]

theorem c6_missing_background_witness :
    (["readme.txt".toList].filter (extTest bgExts) = []) ∧
    (([] : List Char) = [] ∨
      (fun _ : List Char => false) (pathJoin ("assets/bg".toList) []) = false) ∧
    (resolveBgV1 (fun _ => false) ("assets/bg".toList) (some ["readme.txt".toList]) [] 0 =
        .missingBackgroundAsset ∧
     resolveBgV2 (fun _ => false) ("assets/bg".toList) (some ["readme.txt".toList]) [] 0 =
        .missingBackgroundAsset) :=
  ⟨by decide, Or.inl rfl,
   c6_missing_background _ _ _ _ 0 (by decide) (Or.inl rfl)⟩

/-! ## Claim theorems: title resolution (C7) -/

/-- C7 (amended): both variants resolve a non-empty frontmatter `title`
first and the first level-1 heading capture second; when neither is present
the time-sliced variant falls back to the filename-derived base name, but
`scripts/render.js` falls back to the empty string, not to a
filename-derived value. -/
theorem c7_title_resolution (fmTitle content mdPath : List Char) :
    (fmTitle ≠ [] →
      titleV1 fmTitle content = fmTitle ∧ titleV2 fmTitle content mdPath = fmTitle) ∧
    (∀ h, firstH1 content = some h →
      titleV1 [] content = h ∧ titleV2 [] content mdPath = h) ∧
    (firstH1 content = none →
      titleV1 [] content = [] ∧ titleV2 [] content mdPath = baseNameNoMd mdPath) := by
  refine ⟨fun h => ⟨?_, ?_⟩, fun h hh => ⟨?_, ?_⟩, fun h => ⟨?_, ?_⟩⟩ <;>
    simp [titleV1, titleV2, *]

theorem c7_title_resolution_witness :
    (("t".toList : List Char) ≠ []) ∧
    (titleV1 ("t".toList) ("hello".toList) = "t".toList ∧
     titleV2 ("t".toList) ("hello".toList) ("data/foo.md".toList) = "t".toList) ∧
    firstH1 ("hello".toList) = none ∧
    (titleV1 [] ("hello".toList) = [] ∧
     titleV2 [] ("hello".toList) ("data/foo.md".toList) =
       baseNameNoMd ("data/foo.md".toList)) :=
  ⟨by decide,
   (c7_title_resolution ("t".toList) ("hello".toList) ("data/foo.md".toList)).1
     (by decide),
   by decide,
   (c7_title_resolution ("t".toList) ("hello".toList) ("data/foo.md".toList)).2.2
     (by decide)⟩

/-- C7 counterexample: a document `data/morning/mon/foo.md` with no
frontmatter title and no level-1 heading resolves to the non-empty
filename-derived `foo` in the time-sliced variant, but to the empty string
in `scripts/render.js`, contradicting the claimed filename-derived
(non-empty) fallback for every document. -/
theorem c7_counterexample :
    titleV1 [] ("hello".toList) = [] ∧
    titleV2 [] ("hello".toList) ("data/morning/mon/foo.md".toList) = "foo".toList ∧
    ("foo".toList : List Char) ≠ [] := by
  refine ⟨by decide, by decide, by decide⟩

/-! ## Claim theorems: orchestration loop (C8, C9) -/

/-- C8: a document whose render throws is caught at the loop: the count is
unchanged, a log entry carrying the offending path is emitted, and the
remaining candidates are processed exactly as if the failing document had
been absent; no per-document error aborts the run. -/
theorem c8_failure_isolated (m done : Nat) (f : List Char)
    (rest : List (List Char × Outcome)) (h : done < m) :
    runLoop m done ((f, Outcome.failErr) :: rest) =
      ((runLoop m done rest).1,
       f :: (runLoop m done rest).2.1,
       failLog f :: (runLoop m done rest).2.2) ∧
    (∃ pre, failLog f = pre ++ f) := by
  constructor
  · simp [runLoop, Nat.not_le.mpr h]
  · exact ⟨"[render fail] ".toList, rfl⟩

theorem c8_failure_isolated_witness :
    0 < 99 ∧
    (runLoop 99 0 [("data/morning/a.md".toList, Outcome.failErr),
                   ("data/morning/b.md".toList, Outcome.ok)] =
      ((runLoop 99 0 [("data/morning/b.md".toList, Outcome.ok)]).1,
       "data/morning/a.md".toList ::
         (runLoop 99 0 [("data/morning/b.md".toList, Outcome.ok)]).2.1,
       failLog ("data/morning/a.md".toList) ::
         (runLoop 99 0 [("data/morning/b.md".toList, Outcome.ok)]).2.2) ∧
     ∃ pre, failLog ("data/morning/a.md".toList) = pre ++ "data/morning/a.md".toList) :=
  ⟨by decide, c8_failure_isolated 99 0 _ _ (by decide)⟩

/-- C9: with `--max=1` and two candidate documents whose first render
completes, exactly the first document is processed and the run stops before
the second regardless of what it would have done; in general, once the
completed-render count has reached the cap, no further document is
processed. -/
theorem c9_max_cap (f g : List Char) (o : Outcome) (m d : Nat)
    (fs : List (List Char × Outcome)) (h : m ≤ d) :
    runLoop 1 0 [(f, Outcome.ok), (g, o)] = (1, [f], []) ∧
    runLoop m d fs = (d, [], []) := by
  constructor
  · simp [runLoop]
  · cases fs with
    | nil => simp [runLoop]
    | cons p rest =>
      obtain ⟨q, o'⟩ := p
      simp [runLoop, h]

theorem c9_max_cap_witness :
    1 ≤ 1 ∧
    (runLoop 1 0 [("a.md".toList, Outcome.ok), ("b.md".toList, Outcome.ok)] =
        (1, ["a.md".toList], []) ∧
     runLoop 1 1 [("b.md".toList, Outcome.ok)] = (1, [], [])) :=
  ⟨by decide, c9_max_cap ("a.md".toList) ("b.md".toList) Outcome.ok 1 1
    [("b.md".toList, Outcome.ok)] (by decide)⟩

/-! ## Bullet-regex lemmas (C4) -/

lemma splitLines_cons_other (a : Char) (rest : List Char)
    (h1 : ¬ a = '\n') (h2 : ¬ a = '\r') :
    splitLines (a :: rest) = consHead a (splitLines rest) := by
  rw [splitLines.eq_def]
  split
  · rename_i heq; cases heq
  · rename_i heq
    injection heq with ha _
    exact absurd ha h2
  · rename_i heq
    injection heq with ha _
    exact absurd ha h1
  · rename_i c rest' heq
    injection heq with hc hrest
    rw [hc, hrest]

lemma splitLines_chars (s : List Char) (hnr : ∀ c ∈ s, ¬ c = '\r') :
    ∀ l ∈ splitLines s, ∀ c ∈ l, c ∈ s ∧ ¬ c = '\n' ∧ ¬ c = '\r' := by
  induction s with
  | nil =>
    intro l hl c hc
    simp only [splitLines, List.mem_singleton] at hl
    subst hl; simp at hc
  | cons a rest ih =>
    have hnr' : ∀ c ∈ rest, ¬ c = '\r' := fun c hc => hnr c (List.mem_cons_of_mem _ hc)
    have har : ¬ a = '\r' := hnr a (List.mem_cons_self _ _)
    by_cases ha : a = '\n'
    · subst ha
      intro l hl c hc
      rw [show splitLines ('\n' :: rest) = [] :: splitLines rest from rfl] at hl
      rcases List.mem_cons.mp hl with h1 | h2
      · subst h1; simp at hc
      · obtain ⟨hm, hn2, hr2⟩ := ih hnr' l h2 c hc
        exact ⟨List.mem_cons_of_mem _ hm, hn2, hr2⟩
    · intro l hl c hc
      rw [splitLines_cons_other a rest ha har] at hl
      cases hrec : splitLines rest with
      | nil =>
        rw [hrec] at hl
        simp only [consHead, List.mem_singleton] at hl
        subst hl
        rw [List.mem_singleton] at hc
        subst hc
        exact ⟨List.mem_cons_self _ _, ha, har⟩
      | cons l0 ls =>
        rw [hrec] at hl
        simp only [consHead] at hl
        rcases List.mem_cons.mp hl with h1 | h2
        · subst h1
          rcases List.mem_cons.mp hc with hc1 | hc2
          · subst hc1; exact ⟨List.mem_cons_self _ _, ha, har⟩
          · obtain ⟨hm, hn2, hr2⟩ :=
              ih hnr' l0 (by rw [hrec]; exact List.mem_cons_self _ _) c hc2
            exact ⟨List.mem_cons_of_mem _ hm, hn2, hr2⟩
        · obtain ⟨hm, hn2, hr2⟩ :=
            ih hnr' l (by rw [hrec]; exact List.mem_cons_of_mem _ h2) c hc
          exact ⟨List.mem_cons_of_mem _ hm, hn2, hr2⟩

lemma lazyCap_of_has_nonws : ∀ (s : List Char),
    (∀ c ∈ s, jsDot c = true) → s.all jsWs = false →
    lazyCap s = some (trimRight s) ∧ trimRight s ≠ [] := by
  intro s
  induction s with
  | nil => intro _ h; simp at h
  | cons c rest ih =>
    intro hdot hnw
    have hdc : jsDot c = true := hdot c (List.mem_cons_self _ _)
    have htc : trimRight (c :: rest) = trimRightCons c (trimRight rest) := rfl
    by_cases hr : rest.all jsWs = true
    · have hcw : jsWs c = false := by
        rw [List.all_cons, hr, Bool.and_true] at hnw
        exact hnw
      have htr : trimRight rest = [] :=
        trimRight_nil_of_all (fun d hd => List.all_eq_true.mp hr d hd)
      rw [htc, htr]
      constructor
      · simp [lazyCap, hdc, hr, trimRightCons, hcw]
      · simp [trimRightCons, hcw]
    · have hrest : rest.all jsWs = false := Bool.eq_false_iff.mpr hr
      obtain ⟨h1, h2⟩ := ih (fun d hd => hdot d (List.mem_cons_of_mem _ hd)) hrest
      cases htr : trimRight rest with
      | nil => exact absurd htr h2
      | cons d r =>
        rw [htc, htr]
        constructor
        · simp only [lazyCap, hdc, if_pos, hrest, Bool.false_eq_true, if_false]
          rw [h1, htr]
          rfl
        · simp [trimRightCons]

lemma bodyAux_of_lazyCap {s cap : List Char} (gb : List Char)
    (h : lazyCap s = some cap) : bodyAux gb s = some cap := by
  cases gb with
  | nil => exact h
  | cons w gs => simp [bodyAux, h]

lemma bodyAux_allws : ∀ (gb s : List Char),
    (∀ c ∈ gb, jsWs c = true ∧ jsDot c = true) →
    (∀ c ∈ s, jsWs c = true ∧ jsDot c = true) →
    bodyAux gb s = none ∨ ∃ w, jsWs w = true ∧ bodyAux gb s = some [w] := by
  intro gb
  induction gb with
  | nil =>
    intro s _ hs
    cases s with
    | nil => left; rfl
    | cons c rest =>
      right
      obtain ⟨hws, hdot⟩ := hs c (List.mem_cons_self _ _)
      refine ⟨c, hws, ?_⟩
      have hall : rest.all jsWs = true :=
        List.all_eq_true.mpr (fun d hd => (hs d (List.mem_cons_of_mem _ hd)).1)
      show lazyCap (c :: rest) = some [c]
      simp [lazyCap, hdot, hall]
  | cons w gs ih =>
    intro s hgb hs
    have hgw := hgb w (List.mem_cons_self _ _)
    have hgb' : ∀ c ∈ gs, jsWs c = true ∧ jsDot c = true :=
      fun c hc => hgb c (List.mem_cons_of_mem _ hc)
    cases s with
    | nil =>
      have hstep : bodyAux (w :: gs) [] = bodyAux gs [w] := by
        simp [bodyAux, lazyCap]
      rw [hstep]
      exact ih [w] hgb' (by
        intro c hc
        rw [List.mem_singleton] at hc
        subst hc
        exact hgw)
    | cons c rest =>
      obtain ⟨hws, hdot⟩ := hs c (List.mem_cons_self _ _)
      have hall : rest.all jsWs = true :=
        List.all_eq_true.mpr (fun d hd => (hs d (List.mem_cons_of_mem _ hd)).1)
      have hlc : lazyCap (c :: rest) = some [c] := by simp [lazyCap, hdot, hall]
      right
      exact ⟨c, hws, by simp [bodyAux, hlc]⟩

lemma matchBody_some (r : List Char) (hdot : ∀ c ∈ r, jsDot c = true)
    (cap : List Char) (h : matchBody r = some cap) :
    (trimJs r ≠ [] ∧ cap = trimJs r) ∨
    (trimJs r = [] ∧ ∃ w, jsWs w = true ∧ cap = [w]) := by
  unfold matchBody at h
  cases htw : r.takeWhile jsWs with
  | nil => rw [htw] at h; simp at h
  | cons w0 ws1 =>
    rw [htw] at h
    replace h : bodyAux ws1.reverse (r.dropWhile jsWs) = some cap := h
    have hws1 : ∀ c ∈ ws1.reverse, jsWs c = true ∧ jsDot c = true := by
      intro c hc
      rw [List.mem_reverse] at hc
      have hc' : c ∈ r.takeWhile jsWs := by rw [htw]; exact List.mem_cons_of_mem _ hc
      obtain ⟨hm, hp⟩ := mem_takeWhile_mem hc'
      exact ⟨hp, hdot c hm⟩
    cases hdr : r.dropWhile jsWs with
    | nil =>
      have htr : trimJs r = [] := by simp [trimJs, hdr, trimRight]
      rw [hdr] at h
      rcases bodyAux_allws ws1.reverse [] hws1 (by intro c hc; simp at hc) with
        hn | ⟨w, hw, hsome⟩
      · rw [hn] at h; cases h
      · rw [hsome] at h
        right
        exact ⟨htr, w, hw, (Option.some.inj h).symm⟩
    | cons c0 t0 =>
      rw [hdr] at h
      have hd0 : ∀ c ∈ (c0 :: t0), jsDot c = true := by
        intro c hc
        exact hdot c (mem_dropWhile_mem (by rw [hdr]; exact hc))
      have hnw : (c0 :: t0).all jsWs = false := by
        have hc0 : jsWs c0 = false := dropWhile_head_false hdr
        simp [List.all_cons, hc0]
      obtain ⟨h1, h2⟩ := lazyCap_of_has_nonws _ hd0 hnw
      rw [bodyAux_of_lazyCap _ h1] at h
      left
      have hcap : cap = trimRight (c0 :: t0) := (Option.some.inj h).symm
      have htj : trimJs r = trimRight (c0 :: t0) := by simp [trimJs, hdr]
      exact ⟨by rw [htj]; exact h2, by rw [htj, hcap]⟩

lemma dotTail_some {l r : List Char} (h : dotTail l = some r) : l = '.' :: r := by
  rw [dotTail.eq_def] at h
  split at h
  · injection h with h1
    rw [h1]
  · cases h

lemma stripMarker_subset {line r : List Char} (h : stripMarker line = some r) :
    ∀ c ∈ r, c ∈ line := by
  intro c hc
  unfold stripMarker at h
  cases hd : line.dropWhile jsWs with
  | nil => rw [hd] at h; simp at h
  | cons m rest =>
    rw [hd] at h
    replace h : (if m = '-' || m = '*' || m = '+' then some rest
                 else if m.isDigit then dotTail ((m :: rest).dropWhile Char.isDigit)
                 else none) = some r := h
    have hmem : ∀ x ∈ m :: rest, x ∈ line := by
      intro x hx
      exact mem_dropWhile_mem (by rw [hd]; exact hx)
    by_cases h1 : (m = '-' || m = '*' || m = '+') = true
    · rw [if_pos h1] at h
      injection h with he
      subst he
      exact hmem c (List.mem_cons_of_mem _ hc)
    · rw [if_neg h1] at h
      by_cases h2 : m.isDigit = true
      · rw [if_pos h2] at h
        have hl := dotTail_some h
        have hcm : c ∈ (m :: rest).dropWhile Char.isDigit := by
          rw [hl]; exact List.mem_cons_of_mem _ hc
        exact hmem c (mem_dropWhile_mem hcm)
      · rw [if_neg h2] at h
        cases h

/-- The paragraph pipeline as the spec words it: the body split on
blank-line boundaries, each entry whitespace-collapsed and trimmed, empty
entries removed.  Spec-side definition for the refinement statement about
the paragraph branch. -/
def specParagraphs (body : List Char) : List (List Char) :=
  ((splitPara body).map (fun p => trimJs (collapseWs p))).filter (fun p => !p.isEmpty)

/-! ## Claim theorems: body extraction (C4, C5) -/

/-- C4 (amended): for a body (without bare carriage returns) containing at
least one line that matches the bullet regex, the extracted sequence is
exactly the regex captures in source order and the paragraph branch is
ignored; every capture whose item text (after the marker) contains
non-whitespace equals that text with surrounding whitespace trimmed, but an
item whose post-marker text is all whitespace captures one single
whitespace character, untrimmed. -/
theorem c4_bullet_extraction (body : List Char)
    (hnr : ∀ c ∈ body, ¬ c = '\r')
    (hb : bulletsOf body ≠ []) :
    linesOf body = bulletsOf body ∧
    ∀ line ∈ splitLines body, ∀ cap, matchBullet line = some cap →
      ∃ r, stripMarker line = some r ∧
        ((trimJs r ≠ [] ∧ cap = trimJs r) ∨
         (trimJs r = [] ∧ ∃ w, jsWs w = true ∧ cap = [w])) := by
  constructor
  · simp [linesOf, hb]
  · intro line hline cap hcap
    have hlchars := splitLines_chars body hnr line hline
    unfold matchBullet at hcap
    cases hsm : stripMarker line with
    | none => rw [hsm] at hcap; cases hcap
    | some r =>
      rw [hsm] at hcap
      replace hcap : matchBody r = some cap := hcap
      refine ⟨r, rfl, ?_⟩
      have hdotr : ∀ c ∈ r, jsDot c = true := by
        intro c hcr
        obtain ⟨_, hn2, hr2⟩ := hlchars c (stripMarker_subset hsm c hcr)
        simp [jsDot, hn2, hr2]
      exact matchBody_some r hdotr cap hcap

theorem c4_bullet_extraction_witness :
    (∀ c ∈ ("- a\n- b".toList : List Char), ¬ c = '\r') ∧
    bulletsOf ("- a\n- b".toList) ≠ [] ∧
    (linesOf ("- a\n- b".toList) = bulletsOf ("- a\n- b".toList) ∧
     ∀ line ∈ splitLines ("- a\n- b".toList), ∀ cap, matchBullet line = some cap →
       ∃ r, stripMarker line = some r ∧
         ((trimJs r ≠ [] ∧ cap = trimJs r) ∨
          (trimJs r = [] ∧ ∃ w, jsWs w = true ∧ cap = [w]))) :=
  ⟨by decide, by decide, c4_bullet_extraction _ (by decide) (by decide)⟩

/-- C4 counterexample: the body `- a\n-  ` (second line: dash and two
spaces) contains a genuine list item `a`, so the bullet branch applies, but
the second matching line captures the single space `" "` — an extracted
entry that is not whitespace-trimmed, contradicting the claim that the
extracted sequence consists of the captured texts with surrounding
whitespace trimmed. -/
theorem c4_counterexample :
    bulletsOf ("- a\n-  ".toList) ≠ [] ∧
    linesOf ("- a\n-  ".toList) = [['a'], [' ']] ∧
    trimJs [' '] = [] ∧
    ([' '] : List Char) ≠ trimJs [' '] := by
  refine ⟨by decide, by decide, by decide, by decide⟩

/-- C5: for a body with no line matching the bullet regex, the extracted
sequence is the paragraph pipeline: the body split on blank-line runs, each
entry whitespace-collapsed and trimmed, empty entries removed; consequently
every extracted entry is non-empty, trimmed, and all its whitespace
characters are single spaces. -/
theorem c5_paragraph_extraction (body : List Char) (hb : bulletsOf body = []) :
    linesOf body = specParagraphs body ∧
    ∀ p ∈ linesOf body,
      p ≠ [] ∧ trimJs p = p ∧ ∀ c ∈ p, jsWs c = true → c = ' ' := by
  have h1 : linesOf body = paragraphsOf body := by simp [linesOf, hb]
  refine ⟨by rw [h1]; rfl, ?_⟩
  intro p hp
  rw [h1] at hp
  unfold paragraphsOf at hp
  rw [List.mem_filter] at hp
  obtain ⟨hmap, hne⟩ := hp
  rw [List.mem_map] at hmap
  obtain ⟨q, hq, hpq⟩ := hmap
  refine ⟨by simpa using hne, by rw [← hpq]; exact trimJs_idem _, ?_⟩
  intro c hcp hws
  have hcq : c ∈ collapseWs q := mem_trimJs_mem (by rw [hpq]; exact hcp)
  exact mem_collapseAux_sp hcq hws

theorem c5_paragraph_extraction_witness :
    bulletsOf ("Para one\n\nPara  two".toList) = [] ∧
    (linesOf ("Para one\n\nPara  two".toList) =
        specParagraphs ("Para one\n\nPara  two".toList) ∧
     ∀ p ∈ linesOf ("Para one\n\nPara  two".toList),
       p ≠ [] ∧ trimJs p = p ∧ ∀ c ∈ p, jsWs c = true → c = ' ') :=
  ⟨by decide, c5_paragraph_extraction _ (by decide)⟩

end YTS
